import Mathlib

/-!
Shallow embedding of the Thompson-sampling bandit policy engine in
`src/templates/policy.py` (`_ensure_priors`, `sample_arm`, `update_reward`).

The SQLite table `bandit(arm, alpha, beta)` is modelled as an association
list of rows in table order; `arm` is the row key.  Belief parameters and
rewards are rationals (every constant appearing in the source — `0.5`,
`1.0`, `1e-3` — is exact).  The values returned by `random.betavariate`
are modelled as an explicit stream `draws : ℕ → ℚ`, one value per loop
iteration, and the parameter pairs passed to `betavariate` are exposed by
`sampleParams`.  The arm catalog (`load_arms()` reading `arms.yaml`) is
passed explicitly to each operation.
-/

/-- A catalog entry from `arms.yaml`: a unique `name` plus opaque metadata
(the remaining YAML mapping), which the engine passes through unchanged. -/
structure Arm where
  name : String
  meta : List (String × String)
deriving DecidableEq

/-- The persisted belief store: the rows of the SQLite `bandit` table, in
table order.  Each row is `(arm, alpha, beta)`. -/
abbrev Store := List (String × ℚ × ℚ)

/-- `SELECT alpha, beta FROM bandit WHERE arm = ?` followed by `fetchone()`:
the first row with the given key, if any. -/
def lookup : Store → String → Option (ℚ × ℚ)
  | [], _ => none
  | (k, v) :: rest, a => if k = a then some v else lookup rest a

/-- `UPDATE bandit SET alpha = ?, beta = ? WHERE arm = ?`: every row keyed
by `a` receives the new pair; all other rows are untouched. -/
def updateRow : Store → String → ℚ → ℚ → Store
  | [], _, _, _ => []
  | (k, v) :: rest, a, x, y =>
      if k = a then (k, x, y) :: updateRow rest a x y
      else (k, v) :: updateRow rest a x y

/-- Whether the table holds a row keyed by `a`. -/
def hasKey : Store → String → Bool
  | [], _ => false
  | (k, _) :: rest, a => if k = a then true else hasKey rest a

/-- `INSERT OR REPLACE INTO bandit(arm, alpha, beta) VALUES (?, ?, ?)`:
replace the row with the conflicting key when one exists, otherwise append
a fresh row. -/
def insertOrReplace (s : Store) (k : String) (x y : ℚ) : Store :=
  if hasKey s k then updateRow s k x y else s ++ [(k, x, y)]

/-- The insertion loop of `_ensure_priors`: `keys` is the key set `have`
read once before the loop; each catalog arm whose name is not in `keys`
is inserted with the uniform prior `(1.0, 1.0)`. -/
def ensureLoop (keys : List String) : Store → List Arm → Store
  | s, [] => s
  | s, a :: rest =>
      ensureLoop keys (if a.name ∈ keys then s else insertOrReplace s a.name 1 1) rest

/-- `_ensure_priors` from `policy.py`, with the catalog passed explicitly
in place of the `load_arms()` call. -/
def ensure_priors (s : Store) (catalog : List Arm) : Store :=
  ensureLoop (s.map Prod.fst) s catalog

/-- The exceptions the sampling path can surface.  `StopIteration` is what
the bare `next(...)` in `sample_arm` raises when no catalog entry matches;
`ConfigurationError` is modelled from the spec's error taxonomy (no class
of that name exists anywhere in the source). -/
inductive PyExc where
  | StopIteration
  | ConfigurationError
deriving DecidableEq

/-- Decidable equality of sampling outcomes, for evaluating `sample_arm`
on concrete inputs. -/
instance decEqExceptPyExcArm : DecidableEq (Except PyExc Arm)
  | Except.ok a, Except.ok b =>
      if h : a = b then isTrue (by rw [h]) else isFalse (fun hc => h (Except.ok.inj hc))
  | Except.ok _, Except.error _ => isFalse (fun hc => Except.noConfusion hc)
  | Except.error _, Except.ok _ => isFalse (fun hc => Except.noConfusion hc)
  | Except.error e, Except.error f =>
      if h : e = f then isTrue (by rw [h]) else isFalse (fun hc => h (Except.error.inj hc))

/-- The selection loop of `sample_arm`: `best_draw` starts at `-1`, each
row's draw is compared strictly (`draw > best_draw`), and the winning
row's arm name is kept.  `i` indexes into the draw stream. -/
def bestLoop (draws : ℕ → ℚ) : Store → ℕ → Option String → ℚ → Option String
  | [], _, best, _ => best
  | r :: rest, i, best, best_draw =>
      if draws i > best_draw then bestLoop draws rest (i + 1) (some r.1) (draws i)
      else bestLoop draws rest (i + 1) best best_draw

/-- The winning arm name of the selection loop over the given rows. -/
def bestArm (rows : Store) (draws : ℕ → ℚ) : Option String :=
  bestLoop draws rows 0 none (-1)

/-- The generator in `next(a for a in arms if a["name"] == best)`: the
first catalog entry with the given name. -/
def findArm : List Arm → String → Option Arm
  | [], _ => none
  | a :: rest, n => if a.name = n then some a else findArm rest n

/-- The final `next(...)` of `sample_arm`: resolve the winning name back
to its catalog entry, raising `StopIteration` when nothing matches (also
when the loop never ran and `best` is still `None`). -/
def nextArm (catalog : List Arm) : Option String → Except PyExc Arm
  | none => Except.error PyExc.StopIteration
  | some n =>
      match findArm catalog n with
      | some a => Except.ok a
      | none => Except.error PyExc.StopIteration

/-- `sample_arm` from `policy.py`: ensure priors, draw one `betavariate`
sample per row of the refreshed table, and resolve the winner in the
catalog. -/
def sample_arm (store : Store) (catalog : List Arm) (draws : ℕ → ℚ) : Except PyExc Arm :=
  nextArm catalog (bestArm (ensure_priors store catalog) draws)

/-- The belief store as left behind by `sample_arm`: its only write is the
internal `_ensure_priors` call (the selection loop only reads). -/
def sampleStore (store : Store) (catalog : List Arm) : Store :=
  ensure_priors store catalog

/-- The clamping `max(alpha, 1e-3), max(beta, 1e-3)` applied to a row's
parameters right before the `betavariate` call. -/
def clampRow (r : String × ℚ × ℚ) : String × ℚ × ℚ :=
  (r.1, max r.2.1 (1 / 1000), max r.2.2 (1 / 1000))

/-- The sequence of `betavariate` calls `sample_arm` makes: one per row of
the refreshed table, tagged with the row's arm name and carrying the
clamped `(alpha, beta)` parameters. -/
def sampleParams (store : Store) (catalog : List Arm) : List (String × ℚ × ℚ) :=
  (ensure_priors store catalog).map clampRow

/-- The `SELECT alpha, beta FROM bandit WHERE arm = ?` read phase of
`update_reward`. -/
def rewardRead (store : Store) (arm : String) : Option (ℚ × ℚ) :=
  lookup store arm

/-- The write phase of `update_reward`, applied to whatever row the read
phase returned: threshold the reward at `0.5`, then `INSERT` a fresh row
or `UPDATE` the existing one with the incremented pair. -/
def rewardWrite (store : Store) (arm : String) (reward : ℚ) (row : Option (ℚ × ℚ)) : Store :=
  let success : ℚ := if reward ≥ 1 / 2 then 1 else 0
  match row with
  | none => store ++ [(arm, 1 + success, 1 + (1 - success))]
  | some (x, y) => updateRow store arm (x + success) (y + (1 - success))

/-- `update_reward` from `policy.py`: the read phase followed by the write
phase, exactly the source's `SELECT`-then-`INSERT`/`UPDATE` shape. -/
def update_reward (store : Store) (arm : String) (reward : ℚ) : Store :=
  rewardWrite store arm reward (rewardRead store arm)

/-- One engine operation, for reasoning about operation sequences. -/
inductive Op where
  | ensure : List Arm → Op
  | sample : List Arm → (ℕ → ℚ) → Op
  | reward : String → ℚ → Op

/-- The effect of one operation on the belief store. -/
def applyOp (s : Store) : Op → Store
  | Op.ensure c => ensure_priors s c
  | Op.sample c _ => sampleStore s c
  | Op.reward a r => update_reward s a r

/-- Run a sequence of engine operations against the store. -/
def runOps (s : Store) : List Op → Store
  | [] => s
  | op :: rest => runOps (applyOp s op) rest

/-- The engine invariant: every stored belief parameter is at least the
prior value `1.0`. -/
def EngineInv (s : Store) : Prop :=
  ∀ row ∈ s, 1 ≤ row.2.1 ∧ 1 ≤ row.2.2

theorem lookup_updateRow_self (s : Store) (a : String) (x y : ℚ) (v : ℚ × ℚ)
    (h : lookup s a = some v) :
    lookup (updateRow s a x y) a = some (x, y) := by
  induction s with
  | nil => simp [lookup] at h
  | cons r rest ih =>
      obtain ⟨k, w⟩ := r
      by_cases hk : k = a
      · subst hk
        simp [updateRow, lookup]
      · simp only [lookup, if_neg hk] at h
        simp [updateRow, lookup, hk, ih h]

theorem lookup_updateRow_ne (s : Store) (a k : String) (x y : ℚ) (h : k ≠ a) :
    lookup (updateRow s a x y) k = lookup s k := by
  induction s with
  | nil => simp [updateRow]
  | cons r rest ih =>
      obtain ⟨k0, w⟩ := r
      by_cases hk : k0 = a
      · subst hk
        simp [updateRow, lookup, Ne.symm h, ih]
      · simp [updateRow, lookup, hk, ih]

theorem lookup_append_of_some (s t : Store) (k : String) (v : ℚ × ℚ)
    (h : lookup s k = some v) : lookup (s ++ t) k = some v := by
  induction s with
  | nil => simp [lookup] at h
  | cons r rest ih =>
      obtain ⟨k0, w⟩ := r
      by_cases hk : k0 = k
      · simp only [lookup, if_pos hk] at h
        simp [lookup, hk, h]
      · simp only [lookup, if_neg hk] at h
        simp [lookup, hk, ih h]

theorem lookup_append_of_none (s t : Store) (k : String)
    (h : lookup s k = none) : lookup (s ++ t) k = lookup t k := by
  induction s with
  | nil => simp
  | cons r rest ih =>
      obtain ⟨k0, w⟩ := r
      by_cases hk : k0 = k
      · simp [lookup, hk] at h
      · simp only [lookup, if_neg hk] at h
        simp [lookup, hk, ih h]

/-- Claim C1: with a stored record `(x, y)` for arm `a`, `update_reward`
increments `alpha` by exactly `1.0` when `reward ≥ 0.5` (boundary counted
as success) leaving `beta` unchanged, and increments `beta` by exactly
`1.0` otherwise leaving `alpha` unchanged; the update is never fractional
or weighted. -/
theorem C1_threshold_update (store : Store) (a : String) (r x y : ℚ)
    (h : lookup store a = some (x, y)) :
    lookup (update_reward store a r) a =
      some (if r ≥ 1 / 2 then (x + 1, y) else (x, y + 1)) := by
  unfold update_reward rewardWrite rewardRead
  rw [h]
  by_cases hr : r ≥ 1 / 2
  · simp only [hr, if_true]
    rw [lookup_updateRow_self store a _ _ _ h]
    norm_num
  · simp only [hr, if_false]
    rw [lookup_updateRow_self store a _ _ _ h]
    norm_num

/-- Witness for C1 at the inclusive boundary `reward = 0.5` on a record
holding `(1, 1)`. -/
theorem C1_threshold_update_witness :
    lookup [("a", (1 : ℚ), (1 : ℚ))] "a" = some (1, 1) ∧
    lookup (update_reward [("a", (1 : ℚ), (1 : ℚ))] "a" (1 / 2)) "a" =
      some (if (1 : ℚ) / 2 ≥ 1 / 2 then ((1 : ℚ) + 1, (1 : ℚ)) else (1, 1 + 1)) :=
  ⟨by decide, C1_threshold_update [("a", 1, 1)] "a" (1 / 2) 1 1 (by decide)⟩

/-- Claim C6: when no belief record exists for `arm_name`, `update_reward`
creates one as if the uniform prior `(1.0, 1.0)` had been stored first and
then thresholded: the new record is `(2, 1)` for `reward ≥ 0.5` and
`(1, 2)` otherwise. -/
theorem C6_lazy_create (store : Store) (a : String) (r : ℚ)
    (h : lookup store a = none) :
    lookup (update_reward store a r) a =
      some (if r ≥ 1 / 2 then ((2 : ℚ), (1 : ℚ)) else (1, 2)) := by
  unfold update_reward rewardWrite rewardRead
  rw [h]
  by_cases hr : r ≥ 1 / 2
  · simp only [hr, if_true]
    rw [lookup_append_of_none store _ a h]
    simp [lookup]
    norm_num
  · simp only [hr, if_false]
    rw [lookup_append_of_none store _ a h]
    simp [lookup]
    norm_num

/-- Witness for C6: a reward below the threshold against an empty store
creates the record `(1, 2)`. -/
theorem C6_lazy_create_witness :
    lookup ([] : Store) "a" = none ∧
    lookup (update_reward ([] : Store) "a" 0) "a" =
      some (if (0 : ℚ) ≥ 1 / 2 then ((2 : ℚ), (1 : ℚ)) else (1, 2)) :=
  ⟨by decide, C6_lazy_create [] "a" 0 (by decide)⟩

theorem filter_ne_updateRow (s : Store) (a : String) (x y : ℚ) :
    (updateRow s a x y).filter (fun row => row.1 != a) =
      s.filter (fun row => row.1 != a) := by
  induction s with
  | nil => rfl
  | cons r rest ih =>
      obtain ⟨k, w⟩ := r
      by_cases hk : k = a
      · subst hk
        simp [updateRow, List.filter, ih]
      · have hb : (k != a) = true := by simp [hk]
        simp [updateRow, List.filter_cons, hk, hb, ih]

/-- Claim C10: `update_reward` touches at most the record keyed by the
given arm: the list of rows for every other arm is exactly the same after
the call as before it. -/
theorem C10_frame (store : Store) (a : String) (r : ℚ) :
    (update_reward store a r).filter (fun row => row.1 != a) =
      store.filter (fun row => row.1 != a) := by
  unfold update_reward rewardWrite rewardRead
  cases h : lookup store a with
  | none =>
      simp only []
      rw [List.filter_append]
      simp [List.filter]
  | some v =>
      obtain ⟨x, y⟩ := v
      simp only []
      exact filter_ne_updateRow store a _ _

theorem lookup_eq_none_iff (s : Store) (k : String) :
    lookup s k = none ↔ k ∉ s.map Prod.fst := by
  induction s with
  | nil => simp [lookup]
  | cons r rest ih =>
      obtain ⟨k0, w⟩ := r
      by_cases hk : k0 = k
      · subst hk
        simp [lookup]
      · simp [lookup, hk, ih, Ne.symm hk]

theorem mem_keys_of_lookup (s : Store) (k : String) (v : ℚ × ℚ)
    (h : lookup s k = some v) : k ∈ s.map Prod.fst := by
  by_contra hmem
  rw [(lookup_eq_none_iff s k).mpr hmem] at h
  exact Option.noConfusion h

theorem hasKey_true_iff (s : Store) (k : String) :
    hasKey s k = true ↔ ∃ v, lookup s k = some v := by
  induction s with
  | nil => simp [hasKey, lookup]
  | cons r rest ih =>
      obtain ⟨k0, w⟩ := r
      by_cases hk : k0 = k
      · simp [hasKey, lookup, hk]
      · simp [hasKey, lookup, hk, ih]

theorem hasKey_false_iff (s : Store) (k : String) :
    hasKey s k = false ↔ lookup s k = none := by
  induction s with
  | nil => simp [hasKey, lookup]
  | cons r rest ih =>
      obtain ⟨k0, w⟩ := r
      by_cases hk : k0 = k
      · simp [hasKey, lookup, hk]
      · simp [hasKey, lookup, hk, ih]

theorem lookup_insertOrReplace_self (s : Store) (k : String) (x y : ℚ) :
    lookup (insertOrReplace s k x y) k = some (x, y) := by
  unfold insertOrReplace
  by_cases hc : hasKey s k
  · rw [if_pos hc]
    obtain ⟨v, hv⟩ := (hasKey_true_iff s k).mp hc
    exact lookup_updateRow_self s k x y v hv
  · rw [if_neg hc]
    have hn : lookup s k = none :=
      (hasKey_false_iff s k).mp (Bool.not_eq_true _ ▸ hc)
    rw [lookup_append_of_none s _ k hn]
    simp [lookup]

theorem lookup_insertOrReplace_ne (s : Store) (k a : String) (x y : ℚ)
    (h : a ≠ k) : lookup (insertOrReplace s k x y) a = lookup s a := by
  unfold insertOrReplace
  by_cases hc : hasKey s k
  · rw [if_pos hc]
    exact lookup_updateRow_ne s k a x y h
  · rw [if_neg hc]
    cases hv : lookup s a with
    | none =>
        rw [lookup_append_of_none s _ a hv]
        simp [lookup, Ne.symm h]
    | some v => exact lookup_append_of_some s _ a v hv

theorem lookup_ensureLoop_mem (keys : List String) (c : List Arm) :
    ∀ (s : Store) (k : String), k ∈ keys →
      lookup (ensureLoop keys s c) k = lookup s k := by
  induction c with
  | nil => intro s k _; rfl
  | cons a rest ih =>
      intro s k hk
      unfold ensureLoop
      by_cases ha : a.name ∈ keys
      · rw [if_pos ha]
        exact ih s k hk
      · rw [if_neg ha, ih _ k hk]
        exact lookup_insertOrReplace_ne s a.name k 1 1 (fun he => ha (he ▸ hk))

theorem lookup_ensureLoop_stable (keys : List String) (c : List Arm) :
    ∀ (s : Store) (k : String), lookup s k = some (1, 1) →
      lookup (ensureLoop keys s c) k = some (1, 1) := by
  induction c with
  | nil => intro s k h; exact h
  | cons a rest ih =>
      intro s k h
      unfold ensureLoop
      by_cases ha : a.name ∈ keys
      · rw [if_pos ha]
        exact ih s k h
      · rw [if_neg ha]
        by_cases he : k = a.name
        · subst he
          exact ih _ a.name (lookup_insertOrReplace_self s a.name 1 1)
        · apply ih
          rw [lookup_insertOrReplace_ne s a.name k 1 1 he]
          exact h

theorem lookup_ensureLoop_inserted (keys : List String) (c : List Arm) :
    ∀ (s : Store) (k : String), k ∉ keys → (∃ a ∈ c, a.name = k) →
      (lookup s k = none ∨ lookup s k = some (1, 1)) →
      lookup (ensureLoop keys s c) k = some (1, 1) := by
  induction c with
  | nil =>
      intro s k _ hmem _
      simp at hmem
  | cons a rest ih =>
      intro s k hk hmem hs
      unfold ensureLoop
      by_cases he : a.name = k
      · rw [if_neg (fun hin => hk (he ▸ hin))]
        exact lookup_ensureLoop_stable keys rest _ k (he ▸ lookup_insertOrReplace_self s a.name 1 1)
      · obtain ⟨b, hb, hbk⟩ := hmem
        have hbrest : b ∈ rest := by
          cases List.mem_cons.mp hb with
          | inl hba => exact absurd (hba ▸ hbk) he
          | inr h2 => exact h2
        by_cases ha : a.name ∈ keys
        · rw [if_pos ha]
          exact ih s k hk ⟨b, hbrest, hbk⟩ hs
        · rw [if_neg ha]
          apply ih _ k hk ⟨b, hbrest, hbk⟩
          rw [lookup_insertOrReplace_ne s a.name k 1 1 (fun hh => he hh.symm)]
          exact hs

theorem ensure_priors_keep (s : Store) (catalog : List Arm) (k : String)
    (w : ℚ × ℚ) (hw : lookup s k = some w) :
    lookup (ensure_priors s catalog) k = some w := by
  rw [ensure_priors, lookup_ensureLoop_mem _ _ s k (mem_keys_of_lookup s k w hw)]
  exact hw

theorem ensure_priors_new (s : Store) (catalog : List Arm) (a : Arm)
    (ha : a ∈ catalog) (hnone : lookup s a.name = none) :
    lookup (ensure_priors s catalog) a.name = some (1, 1) := by
  apply lookup_ensureLoop_inserted
  · exact (lookup_eq_none_iff s a.name).mp hnone
  · exact ⟨a, ha, rfl⟩
  · exact Or.inl hnone

theorem ensure_priors_covers (s : Store) (catalog : List Arm) (a : Arm)
    (ha : a ∈ catalog) :
    ∃ v, lookup (ensure_priors s catalog) a.name = some v := by
  cases hv : lookup s a.name with
  | none => exact ⟨(1, 1), ensure_priors_new s catalog a ha hv⟩
  | some w => exact ⟨w, ensure_priors_keep s catalog a.name w hv⟩

theorem keys_updateRow (s : Store) (a : String) (x y : ℚ) :
    (updateRow s a x y).map Prod.fst = s.map Prod.fst := by
  induction s with
  | nil => rfl
  | cons r rest ih =>
      obtain ⟨k, w⟩ := r
      by_cases hk : k = a
      · simp [updateRow, hk, ih]
      · simp [updateRow, hk, ih]

theorem keys_insertOrReplace_nodup (s : Store) (k : String) (x y : ℚ)
    (h : (s.map Prod.fst).Nodup) :
    ((insertOrReplace s k x y).map Prod.fst).Nodup := by
  unfold insertOrReplace
  by_cases hc : hasKey s k
  · rw [if_pos hc, keys_updateRow]
    exact h
  · rw [if_neg hc]
    have hn : lookup s k = none :=
      (hasKey_false_iff s k).mp (Bool.not_eq_true _ ▸ hc)
    have hk : k ∉ s.map Prod.fst := (lookup_eq_none_iff s k).mp hn
    rw [List.map_append]
    simp [List.nodup_append, h, hk]

theorem nodup_ensureLoop (keys : List String) (c : List Arm) :
    ∀ s : Store, (s.map Prod.fst).Nodup →
      ((ensureLoop keys s c).map Prod.fst).Nodup := by
  induction c with
  | nil => intro s h; exact h
  | cons a rest ih =>
      intro s h
      unfold ensureLoop
      by_cases ha : a.name ∈ keys
      · rw [if_pos ha]
        exact ih s h
      · rw [if_neg ha]
        exact ih _ (keys_insertOrReplace_nodup s a.name 1 1 h)

theorem ensureLoop_skip (keys : List String) (c : List Arm)
    (h : ∀ a ∈ c, a.name ∈ keys) : ∀ s : Store, ensureLoop keys s c = s := by
  induction c with
  | nil => intro s; rfl
  | cons a rest ih =>
      intro s
      unfold ensureLoop
      rw [if_pos (h a (List.mem_cons_self a rest))]
      exact ih (fun b hb => h b (List.mem_cons_of_mem a hb)) s

theorem ensure_priors_idem (s : Store) (catalog : List Arm) :
    ensure_priors (ensure_priors s catalog) catalog = ensure_priors s catalog := by
  apply ensureLoop_skip
  intro a ha
  obtain ⟨v, hv⟩ := ensure_priors_covers s catalog a ha
  exact mem_keys_of_lookup _ _ v hv

/-- Claim C5: for a non-empty catalog over a store with unique keys,
`ensure_priors` leaves exactly one record per catalog arm name — equal to
`(1, 1)` where none existed and exactly the previous pair where one did —
and a second call on the resulting store changes nothing. -/
theorem C5_ensure_priors_spec (store : Store) (catalog : List Arm)
    (hnd : (store.map Prod.fst).Nodup) (hne : catalog ≠ []) :
    ((ensure_priors store catalog).map Prod.fst).Nodup ∧
    (∀ a ∈ catalog, ∃ v, lookup (ensure_priors store catalog) a.name = some v ∧
      (lookup store a.name = none → v = (1, 1)) ∧
      (∀ w, lookup store a.name = some w → v = w)) ∧
    ensure_priors (ensure_priors store catalog) catalog = ensure_priors store catalog := by
  refine ⟨nodup_ensureLoop _ _ store hnd, ?_, ensure_priors_idem store catalog⟩
  intro a ha
  cases hv : lookup store a.name with
  | none =>
      refine ⟨(1, 1), ensure_priors_new store catalog a ha hv, fun _ => rfl, ?_⟩
      intro w hw
      exact Option.noConfusion hw
  | some w =>
      refine ⟨w, ensure_priors_keep store catalog a.name w hv, ?_, ?_⟩
      · intro hn
        exact Option.noConfusion hn
      · intro w2 hw2
        exact Option.some.inj hw2

/-- Witness for C5: one pre-existing record `("a", 2, 3)` and the
two-arm catalog `[a, b]`. -/
theorem C5_ensure_priors_spec_witness :
    (([("a", (2 : ℚ), (3 : ℚ))] : Store).map Prod.fst).Nodup ∧
    ([Arm.mk "a" [], Arm.mk "b" []] ≠ []) ∧
    (((ensure_priors [("a", (2 : ℚ), (3 : ℚ))] [Arm.mk "a" [], Arm.mk "b" []]).map Prod.fst).Nodup ∧
    (∀ a ∈ [Arm.mk "a" [], Arm.mk "b" []],
      ∃ v, lookup (ensure_priors [("a", (2 : ℚ), (3 : ℚ))] [Arm.mk "a" [], Arm.mk "b" []]) a.name = some v ∧
      (lookup [("a", (2 : ℚ), (3 : ℚ))] a.name = none → v = (1, 1)) ∧
      (∀ w, lookup [("a", (2 : ℚ), (3 : ℚ))] a.name = some w → v = w)) ∧
    ensure_priors (ensure_priors [("a", (2 : ℚ), (3 : ℚ))] [Arm.mk "a" [], Arm.mk "b" []])
        [Arm.mk "a" [], Arm.mk "b" []] =
      ensure_priors [("a", (2 : ℚ), (3 : ℚ))] [Arm.mk "a" [], Arm.mk "b" []]) :=
  ⟨by decide, by decide,
    C5_ensure_priors_spec [("a", 2, 3)] [Arm.mk "a" [], Arm.mk "b" []] (by decide) (by decide)⟩

theorem bestLoop_stay (draws : ℕ → ℚ) (rows : Store) :
    ∀ (i : ℕ) (best : Option String) (bd : ℚ),
      (∀ t, t < rows.length → draws (i + t) ≤ bd) →
      bestLoop draws rows i best bd = best := by
  induction rows with
  | nil => intro i best bd _; rfl
  | cons r rest ih =>
      intro i best bd h
      unfold bestLoop
      have h0 : draws i ≤ bd := by simpa using h 0 (by simp)
      rw [if_neg (not_lt.mpr h0)]
      apply ih
      intro t ht
      have h1 := h (t + 1) (by simpa using Nat.succ_lt_succ ht)
      have heq : i + 1 + t = i + (t + 1) := by omega
      rw [heq]
      exact h1

theorem bestLoop_some (draws : ℕ → ℚ) (rows : Store) :
    ∀ (i : ℕ) (k0 : String) (bd : ℚ),
      ∃ k, bestLoop draws rows i (some k0) bd = some k ∧
        (k = k0 ∨ k ∈ rows.map Prod.fst) := by
  induction rows with
  | nil => intro i k0 bd; exact ⟨k0, rfl, Or.inl rfl⟩
  | cons r rest ih =>
      intro i k0 bd
      unfold bestLoop
      by_cases hc : draws i > bd
      · rw [if_pos hc]
        obtain ⟨k, hk, hm⟩ := ih (i + 1) r.1 (draws i)
        refine ⟨k, hk, Or.inr ?_⟩
        rcases hm with h1 | h2
        · simp [h1]
        · simp [h2]
      · rw [if_neg hc]
        obtain ⟨k, hk, hm⟩ := ih (i + 1) k0 bd
        refine ⟨k, hk, ?_⟩
        rcases hm with h1 | h2
        · exact Or.inl h1
        · exact Or.inr (by simp [h2])

theorem mem_updateRow (s : Store) (a : String) (x y : ℚ) (row : String × ℚ × ℚ) :
    row ∈ updateRow s a x y → row ∈ s ∨ row = (a, x, y) := by
  induction s with
  | nil => intro h; simp [updateRow] at h
  | cons r rest ih =>
      obtain ⟨k, w⟩ := r
      intro h
      by_cases hk : k = a
      · subst hk
        simp only [updateRow, if_pos rfl] at h
        rcases List.mem_cons.mp h with h1 | h2
        · exact Or.inr h1
        · rcases ih h2 with h3 | h4
          · exact Or.inl (List.mem_cons_of_mem _ h3)
          · exact Or.inr h4
      · simp only [updateRow, if_neg hk] at h
        rcases List.mem_cons.mp h with h1 | h2
        · exact Or.inl (h1 ▸ List.mem_cons_self _ _)
        · rcases ih h2 with h3 | h4
          · exact Or.inl (List.mem_cons_of_mem _ h3)
          · exact Or.inr h4

theorem mem_insertOrReplace (s : Store) (k : String) (x y : ℚ)
    (row : String × ℚ × ℚ) :
    row ∈ insertOrReplace s k x y → row ∈ s ∨ row = (k, x, y) := by
  unfold insertOrReplace
  by_cases hc : hasKey s k
  · rw [if_pos hc]
    exact mem_updateRow s k x y row
  · rw [if_neg hc]
    intro h
    rcases List.mem_append.mp h with h1 | h2
    · exact Or.inl h1
    · exact Or.inr (by simpa using h2)

theorem mem_ensureLoop (keys : List String) (c : List Arm) :
    ∀ (s : Store) (row : String × ℚ × ℚ), row ∈ ensureLoop keys s c →
      row ∈ s ∨ (row.2 = (1, 1) ∧ ∃ a ∈ c, a.name = row.1) := by
  induction c with
  | nil => intro s row h; exact Or.inl h
  | cons a rest ih =>
      intro s row h
      unfold ensureLoop at h
      by_cases ha : a.name ∈ keys
      · rw [if_pos ha] at h
        rcases ih s row h with h1 | ⟨h2, b, hb, hbn⟩
        · exact Or.inl h1
        · exact Or.inr ⟨h2, b, List.mem_cons_of_mem a hb, hbn⟩
      · rw [if_neg ha] at h
        rcases ih _ row h with h1 | ⟨h2, b, hb, hbn⟩
        · rcases mem_insertOrReplace s a.name 1 1 row h1 with h3 | h4
          · exact Or.inl h3
          · subst h4
            exact Or.inr ⟨rfl, a, List.mem_cons_self a rest, rfl⟩
        · exact Or.inr ⟨h2, b, List.mem_cons_of_mem a hb, hbn⟩

theorem ensure_priors_orphan_free (s : Store) (catalog : List Arm)
    (h : ∀ row ∈ s, ∃ a ∈ catalog, a.name = row.1) :
    ∀ row ∈ ensure_priors s catalog, ∃ a ∈ catalog, a.name = row.1 := by
  intro row hrow
  rcases mem_ensureLoop _ _ s row hrow with h1 | ⟨_, hex⟩
  · exact h row h1
  · exact hex

theorem findArm_mem (catalog : List Arm) (n : String) (a : Arm)
    (h : findArm catalog n = some a) : a ∈ catalog := by
  induction catalog with
  | nil => simp [findArm] at h
  | cons b rest ih =>
      by_cases hb : b.name = n
      · simp only [findArm, if_pos hb] at h
        exact (Option.some.inj h) ▸ List.mem_cons_self b rest
      · simp only [findArm, if_neg hb] at h
        exact List.mem_cons_of_mem b (ih h)

theorem findArm_isSome (catalog : List Arm) (n : String)
    (h : ∃ a ∈ catalog, a.name = n) : ∃ a, findArm catalog n = some a := by
  induction catalog with
  | nil => simp at h
  | cons b rest ih =>
      by_cases hb : b.name = n
      · exact ⟨b, by simp [findArm, hb]⟩
      · obtain ⟨a, ha, han⟩ := h
        rcases List.mem_cons.mp ha with h1 | h2
        · exact absurd (h1 ▸ han) hb
        · obtain ⟨a2, ha2⟩ := ih ⟨a, h2, han⟩
          exact ⟨a2, by simp [findArm, hb, ha2]⟩

/-- Counterexample to claim C3 as stated: with the single orphaned record
`("orphan", 1, 1)` in the store, the catalog `[{name := "a"}]` (whose one
arm does get a valid belief record from the internal priors pass), and a
draw stream giving the orphan a greater draw than `"a"`, the orphan wins
and the final `next(...)` raises `StopIteration` instead of returning. -/
theorem C3_orphan_raises_counterexample :
    sample_arm [("orphan", (1 : ℚ), (1 : ℚ))] [Arm.mk "a" []]
        (fun i => if i = 0 then 1 else 0) =
      Except.error PyExc.StopIteration := by decide

/-- Claim C3 as amended: when additionally every record in the belief
store belongs to the catalog (no orphaned records), `sample_arm` raises no
exception and returns an arm of the input catalog, for any realizable
(non-negative) draw stream. -/
theorem C3_no_orphans_safe (store : Store) (catalog : List Arm) (draws : ℕ → ℚ)
    (hdr : ∀ i, 0 ≤ draws i) (hcat : catalog ≠ [])
    (horphan : ∀ row ∈ store, ∃ a ∈ catalog, a.name = row.1) :
    ∃ a, sample_arm store catalog draws = Except.ok a ∧ a ∈ catalog := by
  obtain ⟨a0, ha0⟩ : ∃ a0, a0 ∈ catalog := by
    cases catalog with
    | nil => exact absurd rfl hcat
    | cons b rest => exact ⟨b, List.mem_cons_self b rest⟩
  obtain ⟨v, hv⟩ := ensure_priors_covers store catalog a0 ha0
  have horphan2 := ensure_priors_orphan_free store catalog horphan
  cases hrows : ensure_priors store catalog with
  | nil =>
      rw [hrows] at hv
      simp [lookup] at hv
  | cons r rest =>
      rw [hrows] at horphan2
      have hb : ∃ k, bestLoop draws (r :: rest) 0 none (-1) = some k ∧
          k ∈ (r :: rest).map Prod.fst := by
        unfold bestLoop
        have hpos : draws 0 > (-1 : ℚ) := by
          have := hdr 0
          linarith
        rw [if_pos hpos]
        obtain ⟨k, hk, hm⟩ := bestLoop_some draws rest 1 r.1 (draws 0)
        refine ⟨k, hk, ?_⟩
        rcases hm with h1 | h2
        · simp [h1]
        · simp [h2]
      obtain ⟨k, hk, hkm⟩ := hb
      obtain ⟨row, hrowm, hrowk⟩ := List.mem_map.mp hkm
      obtain ⟨b, hbcat, hbn⟩ := horphan2 row hrowm
      obtain ⟨a, ha⟩ := findArm_isSome catalog k ⟨b, hbcat, by rw [hbn, hrowk]⟩
      refine ⟨a, ?_, findArm_mem catalog k a ha⟩
      unfold sample_arm bestArm
      rw [hrows, hk]
      simp [nextArm, ha]

/-- Witness for the amended C3: empty store, one-arm catalog, constant
draws of one half. -/
theorem C3_no_orphans_safe_witness :
    (∀ i : ℕ, 0 ≤ (fun _ : ℕ => (1 : ℚ) / 2) i) ∧
    ([Arm.mk "a" []] ≠ ([] : List Arm)) ∧
    (∀ row ∈ ([] : Store), ∃ a ∈ [Arm.mk "a" []], a.name = row.1) ∧
    (∃ a, sample_arm [] [Arm.mk "a" []] (fun _ : ℕ => (1 : ℚ) / 2) = Except.ok a ∧
      a ∈ [Arm.mk "a" []]) :=
  ⟨fun _ => by norm_num, by decide, by decide,
    C3_no_orphans_safe [] [Arm.mk "a" []] (fun _ : ℕ => (1 : ℚ) / 2)
      (fun _ => by norm_num) (by decide) (by decide)⟩

/-- Counterexample to claim C4 as stated: on the empty catalog the code
raises `StopIteration` (the bare `next(...)` with an exhausted generator),
not `ConfigurationError` — no `ConfigurationError` class exists anywhere
in the source. -/
theorem C4_not_configuration_error :
    sample_arm ([] : Store) ([] : List Arm) (fun _ => 0) =
        Except.error PyExc.StopIteration ∧
    sample_arm ([] : Store) ([] : List Arm) (fun _ => 0) ≠
        Except.error PyExc.ConfigurationError := by decide

/-- Claim C4 as amended: on an empty catalog `sample_arm` always fails,
but by raising `StopIteration` (likewise when the winning belief-store arm
cannot be resolved back to catalog metadata); the spec's
`ConfigurationError` does not exist in the code. -/
theorem C4_empty_catalog_raises (store : Store) (draws : ℕ → ℚ) :
    sample_arm store ([] : List Arm) draws = Except.error PyExc.StopIteration := by
  unfold sample_arm
  cases bestArm (ensure_priors store []) draws with
  | none => rfl
  | some n => rfl

/-- Counterexample to claim C2 as stated: with the orphaned record
`("orph", 5, 5)` and the one-arm catalog `[{name := "a"}]`, the code
performs a `betavariate` draw tagged `"orph"` even though no catalog arm
is named `"orph"` — it draws once per belief-store row, not only for
store arms whose name appears in the catalog. -/
theorem C2_orphan_draw_counterexample :
    (sampleParams [("orph", (5 : ℚ), (5 : ℚ))] [Arm.mk "a" []]).map Prod.fst =
        ["orph", "a"] ∧
    ∀ b ∈ [Arm.mk "a" []], b.name ≠ "orph" := by decide

theorem bestLoop_max (draws : ℕ → ℚ) (rows : Store) :
    ∀ (i : ℕ) (best : Option String) (bd : ℚ) (j : ℕ) (hj : j < rows.length),
      bd < draws (i + j) →
      (∀ t, t < rows.length → t ≠ j → draws (i + t) < draws (i + j)) →
      bestLoop draws rows i best bd = some (rows.get ⟨j, hj⟩).1 := by
  induction rows with
  | nil => intro i best bd j hj; exact absurd hj (Nat.not_lt_zero j)
  | cons r rest ih =>
      intro i best bd j hj hbd hmax
      unfold bestLoop
      cases j with
      | zero =>
          have h0 : draws i > bd := by simpa using hbd
          rw [if_pos h0]
          have hall : ∀ t, t < rest.length → draws (i + 1 + t) ≤ draws i := by
            intro t ht
            have h1 := hmax (t + 1) (by simpa using Nat.succ_lt_succ ht) (Nat.succ_ne_zero t)
            have e1 : i + (t + 1) = i + 1 + t := by omega
            rw [e1] at h1
            have e2 : i + 0 = i := by omega
            rw [e2] at h1
            exact le_of_lt h1
          rw [bestLoop_stay draws rest (i + 1) (some r.1) (draws i) hall]
          rfl
      | succ t =>
          have ht : t < rest.length := Nat.lt_of_succ_lt_succ hj
          have e2 : i + (t + 1) = i + 1 + t := by omega
          have hmax2 : ∀ s, s < rest.length → s ≠ t →
              draws (i + 1 + s) < draws (i + 1 + t) := by
            intro s hs hst
            have h2 := hmax (s + 1) (Nat.succ_lt_succ hs) (by omega)
            have e1 : i + (s + 1) = i + 1 + s := by omega
            rw [e1, e2] at h2
            exact h2
          have hget : ((r :: rest).get ⟨t + 1, hj⟩).1 = (rest.get ⟨t, ht⟩).1 := rfl
          by_cases hc : draws i > bd
          · rw [if_pos hc]
            have hbd1 : draws i < draws (i + 1 + t) := by
              have h3 := hmax 0 (Nat.succ_pos _) (by omega)
              rw [e2] at h3
              simpa using h3
            rw [hget]
            exact ih (i + 1) (some r.1) (draws i) t ht hbd1 hmax2
          · rw [if_neg hc]
            have hbd1 : bd < draws (i + 1 + t) := by
              rw [← e2]
              exact hbd
            rw [hget]
            exact ih (i + 1) best bd t ht hbd1 hmax2

/-- Claim C2 as amended: `sample_arm` makes exactly one `betavariate` draw
per belief-store row of the refreshed table (orphaned records included,
not only catalog arms), and when the row at position `j` has the strictly
greatest draw and its name resolves in the catalog, the full catalog entry
— metadata included and unchanged — is returned. -/
theorem C2_samples_and_winner (store : Store) (catalog : List Arm)
    (draws : ℕ → ℚ) (j : ℕ) (k : String) (a : Arm)
    (hk : ((ensure_priors store catalog).map Prod.fst).get? j = some k)
    (hneg : -1 < draws j)
    (hmax : ∀ t, t < (ensure_priors store catalog).length → t ≠ j → draws t < draws j)
    (hfind : findArm catalog k = some a) :
    sample_arm store catalog draws = Except.ok a ∧
    (sampleParams store catalog).map Prod.fst =
      (ensure_priors store catalog).map Prod.fst := by
  rw [List.get?_map] at hk
  obtain ⟨row, hrow, hrowk⟩ := Option.map_eq_some'.mp hk
  obtain ⟨hj, hget⟩ := List.get?_eq_some.mp hrow
  have hbd0 : (-1 : ℚ) < draws (0 + j) := by
    rw [Nat.zero_add]
    exact hneg
  have hmax0 : ∀ t, t < (ensure_priors store catalog).length → t ≠ j →
      draws (0 + t) < draws (0 + j) := by
    intro t h1 h2
    rw [Nat.zero_add, Nat.zero_add]
    exact hmax t h1 h2
  constructor
  · unfold sample_arm bestArm
    rw [bestLoop_max draws (ensure_priors store catalog) 0 none (-1) j hj hbd0 hmax0]
    rw [hget, hrowk]
    simp [nextArm, hfind]
  · simp [sampleParams, List.map_map, Function.comp, clampRow]

/-- Witness for the amended C2: empty store, two-arm catalog with
metadata on the first arm, and a draw stream on which position `0` wins. -/
theorem C2_samples_and_winner_witness :
    (((ensure_priors [] [Arm.mk "x" [("k", "v")], Arm.mk "y" []]).map Prod.fst).get? 0 =
        some "x") ∧
    ((-1 : ℚ) < (fun i : ℕ => if i = 0 then (1 : ℚ) else 0) 0) ∧
    (∀ t, t < (ensure_priors [] [Arm.mk "x" [("k", "v")], Arm.mk "y" []]).length → t ≠ 0 →
      (fun i : ℕ => if i = 0 then (1 : ℚ) else 0) t <
        (fun i : ℕ => if i = 0 then (1 : ℚ) else 0) 0) ∧
    (findArm [Arm.mk "x" [("k", "v")], Arm.mk "y" []] "x" = some (Arm.mk "x" [("k", "v")])) ∧
    (sample_arm [] [Arm.mk "x" [("k", "v")], Arm.mk "y" []]
        (fun i : ℕ => if i = 0 then (1 : ℚ) else 0) =
      Except.ok (Arm.mk "x" [("k", "v")]) ∧
    (sampleParams [] [Arm.mk "x" [("k", "v")], Arm.mk "y" []]).map Prod.fst =
      (ensure_priors [] [Arm.mk "x" [("k", "v")], Arm.mk "y" []]).map Prod.fst) :=
  ⟨by decide, by decide, by decide, by decide,
    C2_samples_and_winner [] [Arm.mk "x" [("k", "v")], Arm.mk "y" []]
      (fun i : ℕ => if i = 0 then (1 : ℚ) else 0) 0 "x" (Arm.mk "x" [("k", "v")])
      (by decide) (by decide) (by decide) (by decide)⟩

theorem lookup_map_clampRow (s : Store) (k : String) (x y : ℚ)
    (h : lookup s k = some (x, y)) :
    lookup (s.map clampRow) k = some (max x (1 / 1000), max y (1 / 1000)) := by
  induction s with
  | nil => simp [lookup] at h
  | cons r rest ih =>
      obtain ⟨k0, wx, wy⟩ := r
      by_cases hk : k0 = k
      · simp only [lookup, if_pos hk] at h
        have hxy := Option.some.inj h
        have hx : wx = x := congrArg Prod.fst hxy
        have hy : wy = y := congrArg (fun p => p.2) hxy
        subst hx
        subst hy
        simp [lookup, clampRow, hk]
      · simp only [lookup, if_neg hk] at h
        simp [lookup, clampRow, hk, ih h]

/-- Claim C7: for a stored record `(x, y)` — in particular a malformed one
with `x ≤ 0` or `y ≤ 0` — `sample_arm` draws with each parameter clamped
to `max(param, 1e-3)` (hence strictly positive, so the `betavariate` call
is well-defined and raises nothing for that record), and the clamped
values are not written back: the stored record is unchanged by
sampling. -/
theorem C7_clamp_not_persisted (store : Store) (catalog : List Arm)
    (k : String) (x y : ℚ) (h : lookup store k = some (x, y))
    (hmal : x ≤ 0 ∨ y ≤ 0) :
    lookup (sampleParams store catalog) k =
        some (max x (1 / 1000), max y (1 / 1000)) ∧
    (0 < max x (1 / 1000) ∧ 0 < max y (1 / 1000)) ∧
    lookup (sampleStore store catalog) k = some (x, y) := by
  have hkeep : lookup (ensure_priors store catalog) k = some (x, y) :=
    ensure_priors_keep store catalog k (x, y) h
  refine ⟨?_, ⟨?_, ?_⟩, hkeep⟩
  · exact lookup_map_clampRow _ k x y hkeep
  · exact lt_of_lt_of_le (by norm_num) (le_max_right x (1 / 1000))
  · exact lt_of_lt_of_le (by norm_num) (le_max_right y (1 / 1000))

/-- Witness for C7: the malformed record `("m", 0, -2)`. -/
theorem C7_clamp_not_persisted_witness :
    lookup [("m", (0 : ℚ), (-2 : ℚ))] "m" = some (0, -2) ∧
    ((0 : ℚ) ≤ 0 ∨ (-2 : ℚ) ≤ 0) ∧
    (lookup (sampleParams [("m", (0 : ℚ), (-2 : ℚ))] [Arm.mk "a" []]) "m" =
        some (max 0 (1 / 1000), max (-2) (1 / 1000)) ∧
    ((0 : ℚ) < max 0 (1 / 1000) ∧ (0 : ℚ) < max (-2) (1 / 1000)) ∧
    lookup (sampleStore [("m", (0 : ℚ), (-2 : ℚ))] [Arm.mk "a" []]) "m" = some (0, -2)) :=
  ⟨by decide, Or.inl (by decide),
    C7_clamp_not_persisted [("m", 0, -2)] [Arm.mk "a" []] "m" 0 (-2)
      (by decide) (Or.inl (by decide))⟩

theorem update_reward_cases (s : Store) (a : String) (r : ℚ) :
    (lookup s a = none ∧
      update_reward s a r =
        s ++ [(a, if r ≥ 1 / 2 then 2 else 1, if r ≥ 1 / 2 then 1 else 2)]) ∨
    (∃ x y, lookup s a = some (x, y) ∧
      update_reward s a r =
        updateRow s a (if r ≥ 1 / 2 then x + 1 else x) (if r ≥ 1 / 2 then y else y + 1)) := by
  unfold update_reward rewardWrite rewardRead
  cases hsel : lookup s a with
  | none =>
      left
      refine ⟨rfl, ?_⟩
      split_ifs with hr <;> norm_num
  | some v =>
      obtain ⟨x, y⟩ := v
      right
      refine ⟨x, y, rfl, ?_⟩
      split_ifs with hr <;> norm_num

theorem lookup_mem (s : Store) (k : String) (v : ℚ × ℚ)
    (h : lookup s k = some v) : (k, v) ∈ s := by
  induction s with
  | nil => simp [lookup] at h
  | cons r rest ih =>
      obtain ⟨k0, w⟩ := r
      by_cases hk : k0 = k
      · simp only [lookup, if_pos hk] at h
        subst hk
        cases Option.some.inj h
        exact List.mem_cons_self _ _
      · simp only [lookup, if_neg hk] at h
        exact List.mem_cons_of_mem _ (ih h)

theorem engineInv_ensure (s : Store) (c : List Arm) (h : EngineInv s) :
    EngineInv (ensure_priors s c) := by
  intro row hrow
  rcases mem_ensureLoop _ _ s row hrow with h1 | ⟨h2, _⟩
  · exact h row h1
  · rw [h2]
    exact ⟨le_refl 1, le_refl 1⟩

theorem engineInv_update (s : Store) (a : String) (r : ℚ) (h : EngineInv s) :
    EngineInv (update_reward s a r) := by
  rcases update_reward_cases s a r with ⟨hnone, heq⟩ | ⟨x, y, hsome, heq⟩
  · rw [heq]
    intro row hrow
    rcases List.mem_append.mp hrow with h1 | h2
    · exact h row h1
    · have h3 : row = (a, if r ≥ 1 / 2 then 2 else 1, if r ≥ 1 / 2 then 1 else 2) := by
        simpa using h2
      rw [h3]
      dsimp only
      split_ifs with hr <;> norm_num
  · rw [heq]
    intro row hrow
    rcases mem_updateRow s a _ _ row hrow with h1 | h1
    · exact h row h1
    · obtain ⟨hx, hy⟩ := h (a, x, y) (lookup_mem s a (x, y) hsome)
      dsimp only at hx hy
      rw [h1]
      dsimp only
      split_ifs with hr <;> exact ⟨by linarith, by linarith⟩

theorem update_reward_mono (s : Store) (a k : String) (r x y : ℚ)
    (h : lookup s k = some (x, y)) :
    ∃ x2 y2, lookup (update_reward s a r) k = some (x2, y2) ∧ x ≤ x2 ∧ y ≤ y2 := by
  rcases update_reward_cases s a r with ⟨hnone, heq⟩ | ⟨x0, y0, hsome, heq⟩
  · refine ⟨x, y, ?_, le_refl x, le_refl y⟩
    rw [heq]
    exact lookup_append_of_some s _ k (x, y) h
  · by_cases hk : k = a
    · subst hk
      have hxy := Option.some.inj (hsome.symm.trans h)
      have hx : x0 = x := congrArg Prod.fst hxy
      have hy : y0 = y := congrArg (fun p => p.2) hxy
      subst hx
      subst hy
      refine ⟨if r ≥ 1 / 2 then x0 + 1 else x0, if r ≥ 1 / 2 then y0 else y0 + 1, ?_, ?_, ?_⟩
      · rw [heq]
        exact lookup_updateRow_self s k _ _ (x0, y0) hsome
      · split_ifs with hr <;> linarith
      · split_ifs with hr <;> linarith
    · refine ⟨x, y, ?_, le_refl x, le_refl y⟩
      rw [heq, lookup_updateRow_ne s a k _ _ hk]
      exact h

theorem engineInv_applyOp (s : Store) (op : Op) (h : EngineInv s) :
    EngineInv (applyOp s op) := by
  cases op with
  | ensure c => exact engineInv_ensure s c h
  | sample c d => exact engineInv_ensure s c h
  | reward a r => exact engineInv_update s a r h

theorem applyOp_mono (s : Store) (op : Op) (k : String) (x y : ℚ)
    (h : lookup s k = some (x, y)) :
    ∃ x2 y2, lookup (applyOp s op) k = some (x2, y2) ∧ x ≤ x2 ∧ y ≤ y2 := by
  cases op with
  | ensure c => exact ⟨x, y, ensure_priors_keep s c k (x, y) h, le_refl x, le_refl y⟩
  | sample c d => exact ⟨x, y, ensure_priors_keep s c k (x, y) h, le_refl x, le_refl y⟩
  | reward a r => exact update_reward_mono s a k r x y h

/-- Claim C8: starting from a store whose records were all created by the
engine (every parameter at least the prior `1.0`), any sequence of
`ensure_priors`, `sample_arm` and `update_reward` operations keeps every
stored parameter at least `1.0` (hence strictly positive, above the
epsilon floor), and every existing record's `alpha` and `beta` are
monotonically non-decreasing: no operation lowers or resets a stored
belief parameter. -/
theorem C8_monotone_invariant (store : Store) (ops : List Op)
    (h : EngineInv store) :
    EngineInv (runOps store ops) ∧
    ∀ k x y, lookup store k = some (x, y) →
      ∃ x2 y2, lookup (runOps store ops) k = some (x2, y2) ∧ x ≤ x2 ∧ y ≤ y2 := by
  induction ops generalizing store with
  | nil => exact ⟨h, fun k x y hk => ⟨x, y, hk, le_refl x, le_refl y⟩⟩
  | cons op rest ih =>
      obtain ⟨h1, h2⟩ := ih (applyOp store op) (engineInv_applyOp store op h)
      refine ⟨h1, ?_⟩
      intro k x y hk
      obtain ⟨x1, y1, hl1, hx1, hy1⟩ := applyOp_mono store op k x y hk
      obtain ⟨x2, y2, hl2, hx2, hy2⟩ := h2 k x1 y1 hl1
      exact ⟨x2, y2, hl2, le_trans hx1 hx2, le_trans hy1 hy2⟩

/-- Witness for C8: the freshly primed record `("a", 1, 1)` under one
reward update followed by a priors pass. -/
theorem C8_monotone_invariant_witness :
    EngineInv [("a", (1 : ℚ), (1 : ℚ))] ∧
    (EngineInv (runOps [("a", (1 : ℚ), (1 : ℚ))]
        [Op.reward "a" 1, Op.ensure [Arm.mk "b" []]]) ∧
    ∀ k x y, lookup [("a", (1 : ℚ), (1 : ℚ))] k = some (x, y) →
      ∃ x2 y2, lookup (runOps [("a", (1 : ℚ), (1 : ℚ))]
          [Op.reward "a" 1, Op.ensure [Arm.mk "b" []]]) k = some (x2, y2) ∧
        x ≤ x2 ∧ y ≤ y2) :=
  ⟨by simp [EngineInv], C8_monotone_invariant _ _ (by simp [EngineInv])⟩

/-- Claim C9: the source's `update_reward` is a separate `SELECT` followed
by an `UPDATE` computed in Python (first conjunct: the definition is
literally that read phase fed to that write phase).  Interleaving two
`update_reward(a, 1.0)` calls so that both read the freshly primed
`(1, 1)` before either writes leaves `alpha = 2`, not `3`: the lost-update
race the claim says cannot happen.  Sequential execution gives `3` (third
conjunct), so the deficit is caused by the interleaving alone. -/
theorem C9_lost_update :
    (∀ (s : Store) (a : String) (r : ℚ),
      update_reward s a r = rewardWrite s a r (rewardRead s a)) ∧
    lookup (rewardWrite
        (rewardWrite [("a", (1 : ℚ), (1 : ℚ))] "a" 1
          (rewardRead [("a", (1 : ℚ), (1 : ℚ))] "a"))
        "a" 1 (rewardRead [("a", (1 : ℚ), (1 : ℚ))] "a")) "a" = some (2, 1) ∧
    lookup (update_reward (update_reward [("a", (1 : ℚ), (1 : ℚ))] "a" 1) "a" 1) "a" =
      some (3, 1) := by
  refine ⟨fun s a r => rfl, ?_, ?_⟩
  · norm_num [rewardWrite, rewardRead, lookup, updateRow]
  · norm_num [update_reward, rewardWrite, rewardRead, lookup, updateRow]
